import Mathlib

/-!
Verification of the DeadDrop cryptography module (`src/cpp/crypto.cpp`).

The module exposes two C functions compiled to WebAssembly:

* `encrypt_file(plaintext, plaintext_len, key, output)` — draws a 24-byte
  random nonce, calls `crypto_aead_lock` (XChaCha20-Poly1305) and writes
  `nonce || ciphertext || mac` into `output`, returning
  `static_cast<int>(plaintext_len + 40)`, or `-1` when a pointer is null or
  the plaintext is empty.
* `decrypt_file(encrypted, encrypted_len, key, plaintext)` — rejects inputs
  shorter than 40 bytes (or with a null pointer) with `-1`, otherwise splits
  the blob into nonce / ciphertext / mac, calls `crypto_aead_unlock`, and
  returns `static_cast<int>(plaintext_len)` on success or `-1` when the MAC
  does not verify.

Byte buffers are embedded as `List Nat`; a nullable pointer paired with its
length argument becomes `Option (List Nat)` (the list's length plays the
role of the length argument); the nullable output pointer is a `Bool` flag.
The random draw performed by `crypto.getRandomValues` is passed in as an
explicit `nonce` argument.  The `int` return value is embedded as `Int`
through `toInt32`, which models the 32-bit truncating cast performed on
wasm32 (where both `int` and `size_t` are 32 bits wide).

The AEAD primitive itself (`crypto_aead_lock` / `crypto_aead_unlock` from
monocypher) is an external library, not part of this repository's sources;
it is embedded as an abstract engine `AEAD` constrained by the contract the
specification assigns to it (`LawfulAEAD`).
-/

namespace DeadDrop

/-- `static_cast<int>` applied to a `size_t` value on wasm32: reduce modulo
`2^32`, then reinterpret the result as a two's-complement 32-bit signed
integer. -/
def toInt32 (n : Nat) : Int :=
  if n % 2 ^ 32 < 2 ^ 31 then ((n % 2 ^ 32 : Nat) : Int)
  else ((n % 2 ^ 32 : Nat) : Int) - 2 ^ 32

/-- Modelled from the spec: the AEAD engine (monocypher's `crypto_aead_lock`
and `crypto_aead_unlock`, not part of this repository's sources).
`lock key nonce plaintext` returns `(ciphertext, tag)`;
`unlock key nonce ciphertext tag` returns the recovered plaintext, or `none`
when tag verification fails.  Both are called with no associated data in
this module, so the AAD arguments are omitted. -/
structure AEAD where
  lock : List Nat → List Nat → List Nat → List Nat × List Nat
  unlock : List Nat → List Nat → List Nat → List Nat → Option (List Nat)

/-- Modelled from the spec: the contract of the trusted AEAD engine (spec
sections 2, 4, 6 and 8).  `len_c`/`len_t`: ciphertext has the plaintext's
length and the tag is 16 bytes.  `complete`: unlocking an honestly locked
pair succeeds and returns the original plaintext.  `sound`: unlocking
succeeds only on a pair honestly produced under the same key and nonce.
`tag_inj` and `cipher_inj` are the idealization under which the spec's
tamper-detection and wrong-key properties are absolute rather than merely
overwhelming-probability statements: the tag binds key, nonce and
plaintext, and the stream cipher is injective in the plaintext. -/
structure LawfulAEAD (E : AEAD) : Prop where
  len_c : ∀ k n p, (E.lock k n p).1.length = p.length
  len_t : ∀ k n p, (E.lock k n p).2.length = 16
  complete : ∀ k n p, E.unlock k n (E.lock k n p).1 (E.lock k n p).2 = some p
  sound : ∀ k n c t p, E.unlock k n c t = some p → E.lock k n p = (c, t)
  tag_inj : ∀ k n p l m q, (E.lock k n p).2 = (E.lock l m q).2 →
    k = l ∧ n = m ∧ p = q
  cipher_inj : ∀ k n p q, (E.lock k n p).1 = (E.lock k n q).1 → p = q

/-- Result of `encrypt_file`: the `-1` early return for a null pointer or an
empty plaintext, or the success path carrying the bytes written to `output`
together with the returned `int`. -/
inductive EncryptResult where
  | invalidInput : EncryptResult
  | ok : List Nat → Int → EncryptResult
deriving DecidableEq

/-- Result of `decrypt_file`: the `-1` early return for a null pointer or a
blob shorter than 40 bytes, the `-1` return after `crypto_aead_unlock`
reports a MAC failure, or the success path carrying the plaintext written to
the output buffer together with the returned `int`. -/
inductive DecryptResult where
  | invalidInput : DecryptResult
  | authFailure : DecryptResult
  | ok : List Nat → Int → DecryptResult
deriving DecidableEq

/-- The `int` actually surfaced to the caller of `encrypt_file`: both error
paths return the sentinel `-1`. -/
def encryptRet : EncryptResult → Int
  | .invalidInput => -1
  | .ok _ r => r

/-- The `int` actually surfaced to the caller of `decrypt_file`: both error
paths return the sentinel `-1`. -/
def decryptRet : DecryptResult → Int
  | .invalidInput => -1
  | .authFailure => -1
  | .ok _ r => r

/-- `encrypt_file` from `src/cpp/crypto.cpp`.  `plaintext = none` and
`key = none` model null pointers, `outputNull` a null `output` pointer, and
`nonce` the 24 bytes drawn by `crypto.getRandomValues` before the AEAD
call.  On the success path the output buffer holds
`nonce || ciphertext || mac` and the function returns
`static_cast<int>(plaintext_len + 40)`. -/
def encrypt_file (E : AEAD) (plaintext : Option (List Nat))
    (key : Option (List Nat)) (outputNull : Bool) (nonce : List Nat) :
    EncryptResult :=
  match plaintext, key with
  | some p, some k =>
    if outputNull ∨ p.length = 0 then .invalidInput
    else
      .ok (nonce ++ (E.lock k nonce p).1 ++ (E.lock k nonce p).2)
        (toInt32 (p.length + 40))
  | _, _ => .invalidInput

/-- `decrypt_file` from `src/cpp/crypto.cpp`.  `encrypted = none` and
`key = none` model null pointers and `plaintextNull` a null output pointer.
The blob is split as `nonce = encrypted[0..24)`,
`ciphertext = encrypted[24..24+plen)` and `mac = encrypted[24+plen..)` with
`plen = encrypted_len - 40`; on success the function returns
`static_cast<int>(plen)`, on MAC failure `-1`. -/
def decrypt_file (E : AEAD) (encrypted : Option (List Nat))
    (key : Option (List Nat)) (plaintextNull : Bool) : DecryptResult :=
  match encrypted, key with
  | some e, some k =>
    if plaintextNull ∨ e.length < 40 then .invalidInput
    else
      match E.unlock k (e.take 24) ((e.drop 24).take (e.length - 40))
          (e.drop (24 + (e.length - 40))) with
      | some p => .ok p (toInt32 (e.length - 40))
      | none => .authFailure
  | _, _ => .invalidInput

/-- Flip bit `b` of byte `i` of a buffer (the tampering operation of spec
section 8, property 4). -/
def flipAt (l : List Nat) (i b : Nat) : List Nat :=
  l.set i (l.getD i 0 ^^^ 2 ^ b)

/-- Concrete instance of the AEAD engine contract, used to exhibit witnesses:
the ciphertext is the plaintext itself and the tag is an injective encoding
of key, nonce and ciphertext padded to 16 entries. -/
def toyTag (k n c : List Nat) : List Nat :=
  Encodable.encode (k, n, c) :: List.replicate 15 0

/-- The toy engine packaging `toyTag`. -/
def toyAEAD : AEAD where
  lock := fun k n p => (p, toyTag k n p)
  unlock := fun k n c t => if t = toyTag k n c then some c else none

/-- The toy engine satisfies the spec's AEAD contract. -/
theorem toyAEAD_lawful : LawfulAEAD toyAEAD := by
  constructor
  · intro k n p; rfl
  · intro k n p
    simp [toyAEAD, toyTag]
  · intro k n p
    simp [toyAEAD]
  · intro k n c t p h
    simp only [toyAEAD] at h ⊢
    by_cases ht : t = toyTag k n c
    · simp [ht] at h
      subst h ht; rfl
    · simp [ht] at h
  · intro k n p l m q h
    simp only [toyAEAD, toyTag, List.cons.injEq] at h
    have := Encodable.encode_injective h.1
    simpa [Prod.ext_iff] using this
  · intro k n p q h
    simpa [toyAEAD] using h

/-- 32-byte all-zero key used in concrete witnesses. -/
def zeroKey : List Nat := List.replicate 32 0

/-- A second, distinct 32-byte key used in concrete witnesses. -/
def oneKey : List Nat := List.replicate 32 1

/-- 24-byte all-zero nonce used in concrete witnesses. -/
def zeroNonce : List Nat := List.replicate 24 0

/-- `toInt32` is the identity below `2^31` (the cast is lossless whenever the
value fits in a signed 32-bit integer). -/
lemma toInt32_of_lt {n : Nat} (h : n < 2 ^ 31) : toInt32 n = n := by
  have hmod : n % 2 ^ 32 = n := Nat.mod_eq_of_lt (lt_trans h (by norm_num))
  rw [toInt32, if_pos (by rw [hmod]; exact h), hmod]

/-- The success path of `encrypt_file`: with non-null pointers and a
non-empty plaintext, the output buffer is `nonce || ciphertext || mac` and
the return value is the cast of `plaintext_len + 40`. -/
lemma encrypt_file_ok (E : AEAD) (p k n : List Nat) (hp : p ≠ []) :
    encrypt_file E (some p) (some k) false n =
      .ok (n ++ (E.lock k n p).1 ++ (E.lock k n p).2)
        (toInt32 (p.length + 40)) := by
  simp [encrypt_file, List.length_eq_zero, hp]

/-- How `decrypt_file` splits a well-formed blob `n ++ c ++ t` with a
24-byte nonce and a 16-byte tag, and what it does with the engine's
verdict. -/
lemma decrypt_file_parse (E : AEAD) (k n c t : List Nat)
    (hn : n.length = 24) (ht : t.length = 16) :
    decrypt_file E (some (n ++ c ++ t)) (some k) false =
      match E.unlock k n c t with
      | some p => .ok p (toInt32 c.length)
      | none => .authFailure := by
  have hlnc : (n ++ c).length = n.length + c.length := List.length_append n c
  have hlen : (n ++ c ++ t).length = n.length + c.length + t.length := by
    simp only [List.length_append]
  have h40 : ¬ (n ++ c ++ t).length < 40 := by omega
  have hplen : (n ++ c ++ t).length - 40 = c.length := by omega
  have e1 : (n ++ c ++ t).take 24 = n := by
    rw [List.append_assoc]; exact List.take_left' hn
  have e2 : ((n ++ c ++ t).drop 24).take ((n ++ c ++ t).length - 40) = c := by
    rw [hplen, List.append_assoc, List.drop_left' hn]
    exact List.take_left c t
  have e3 : (n ++ c ++ t).drop (24 + ((n ++ c ++ t).length - 40)) = t := by
    have h3 : 24 + ((n ++ c ++ t).length - 40) = (n ++ c).length := by omega
    rw [h3]
    exact List.drop_left (n ++ c) t
  rw [decrypt_file]
  rw [if_neg (by simp only [Bool.false_eq_true, false_or, not_lt]; omega)]
  rw [e1, e2, e3, hplen]

/-- Opening an honestly sealed envelope with the sealing key recovers the
plaintext (the core round-trip argument, shared by several theorems). -/
lemma open_seal (E : AEAD) (hE : LawfulAEAD E) (k n p : List Nat)
    (hn : n.length = 24) :
    decrypt_file E (some (n ++ (E.lock k n p).1 ++ (E.lock k n p).2))
      (some k) false = .ok p (toInt32 p.length) := by
  rw [decrypt_file_parse E k n _ _ hn (hE.len_t k n p), hE.complete k n p,
    hE.len_c k n p]

/-- XORing in a nonzero power of two changes a byte. -/
lemma xor_pow_ne (x b : Nat) : x ^^^ 2 ^ b ≠ x := by
  intro h
  have h2 : x ^^^ (x ^^^ 2 ^ b) = 2 ^ b := by
    rw [← Nat.xor_assoc, Nat.xor_self, Nat.zero_xor]
  rw [h, Nat.xor_self] at h2
  exact absurd h2.symm (pow_ne_zero b two_ne_zero)

/-- Setting position `j` to a value different from the one stored there
yields a different list. -/
lemma set_ne_of_ne (l : List Nat) (j v : Nat) (hj : j < l.length)
    (hv : v ≠ l.getD j 0) : l.set j v ≠ l := by
  intro h
  apply hv
  have hj2 : j < (l.set j v).length := by simpa using hj
  have hget : (l.set j v).getD j 0 = v := by
    rw [List.getD_eq_getElem _ _ hj2]
    exact List.getElem_set_self hj2
  rw [← hget, h]

/-- A bit flip landing in the ciphertext region of `n ++ c ++ t` rewrites
the envelope as `n ++ c2 ++ t` for a ciphertext `c2` of the same length but
different from `c`. -/
lemma flipAt_cipher_region (n c t : List Nat) (i b : Nat)
    (hn : n.length = 24) (h1 : 24 ≤ i) (h2 : i < 24 + c.length) :
    ∃ c2, flipAt (n ++ c ++ t) i b = n ++ c2 ++ t ∧
      c2.length = c.length ∧ c2 ≠ c := by
  have hnc : i < (n ++ c).length := by simp [hn]; omega
  have hni : n.length ≤ i := by omega
  have hgd : (n ++ c ++ t).getD i 0 = c.getD (i - 24) 0 := by
    rw [List.getD_append _ _ _ _ hnc, List.getD_append_right _ _ _ _ hni, hn]
  refine ⟨c.set (i - 24) (c.getD (i - 24) 0 ^^^ 2 ^ b), ?_, by simp, ?_⟩
  · rw [flipAt, hgd, List.set_append_left _ _ hnc,
      List.set_append_right _ _ hni, hn]
  · exact set_ne_of_ne c _ _ (by omega) (xor_pow_ne _ b)

/-- A bit flip landing in the tag region of `n ++ c ++ t` rewrites the
envelope as `n ++ c ++ t2` for a tag `t2` of the same length but different
from `t`. -/
lemma flipAt_tag_region (n c t : List Nat) (i b : Nat)
    (hn : n.length = 24) (h1 : 24 + c.length ≤ i)
    (h2 : i < 24 + c.length + t.length) :
    ∃ t2, flipAt (n ++ c ++ t) i b = n ++ c ++ t2 ∧
      t2.length = t.length ∧ t2 ≠ t := by
  have hnc : (n ++ c).length ≤ i := by simp [hn]; omega
  have hlen : (n ++ c).length = 24 + c.length := by simp [hn]
  have hgd : (n ++ c ++ t).getD i 0 = t.getD (i - (24 + c.length)) 0 := by
    rw [List.getD_append_right _ _ _ _ hnc, hlen]
  refine ⟨t.set (i - (24 + c.length)) (t.getD (i - (24 + c.length)) 0 ^^^ 2 ^ b),
    ?_, by simp, ?_⟩
  · rw [flipAt, hgd, List.set_append_right _ _ hnc, hlen]
  · exact set_ne_of_ne t _ _ (by omega) (xor_pow_ne _ b)

/-- Any single-bit flip in the ciphertext or tag region of an honestly
sealed envelope makes `decrypt_file` take the authentication-failure
branch. -/
lemma tamper_rejects (E : AEAD) (hE : LawfulAEAD E) (k n p : List Nat)
    (i b : Nat) (hn : n.length = 24) (h1 : 24 ≤ i)
    (h2 : i < p.length + 40) :
    decrypt_file E
      (some (flipAt (n ++ (E.lock k n p).1 ++ (E.lock k n p).2) i b))
      (some k) false = .authFailure := by
  have hc : (E.lock k n p).1.length = p.length := hE.len_c k n p
  have ht : (E.lock k n p).2.length = 16 := hE.len_t k n p
  rcases lt_or_le i (24 + (E.lock k n p).1.length) with hi | hi
  · obtain ⟨c2, he, hlen, hne⟩ :=
      flipAt_cipher_region n (E.lock k n p).1 (E.lock k n p).2 i b hn h1 hi
    rw [he, decrypt_file_parse E k n c2 _ hn ht]
    cases hu : E.unlock k n c2 (E.lock k n p).2 with
    | none => rfl
    | some q =>
      exfalso
      have hq := hE.sound k n c2 (E.lock k n p).2 q hu
      have htags : (E.lock k n q).2 = (E.lock k n p).2 := by rw [hq]
      obtain ⟨-, -, hpq⟩ := hE.tag_inj k n q k n p htags
      apply hne
      have : (E.lock k n q).1 = c2 := by rw [hq]
      rw [← this, hpq]
  · obtain ⟨t2, he, hlen, hne⟩ :=
      flipAt_tag_region n (E.lock k n p).1 (E.lock k n p).2 i b hn hi
        (by omega)
    rw [he, decrypt_file_parse E k n _ t2 hn (by rw [hlen, ht])]
    cases hu : E.unlock k n (E.lock k n p).1 t2 with
    | none => rfl
    | some q =>
      exfalso
      have hq := hE.sound k n (E.lock k n p).1 t2 q hu
      have hcs : (E.lock k n q).1 = (E.lock k n p).1 := by rw [hq]
      have hpq := hE.cipher_inj k n q p hcs
      apply hne
      have : (E.lock k n q).2 = t2 := by rw [hq]
      rw [← this, hpq]

/-- Opening an honestly sealed envelope with a different key takes the
authentication-failure branch. -/
lemma wrong_key_rejects (E : AEAD) (hE : LawfulAEAD E)
    (k1 k2 n p : List Nat) (hn : n.length = 24) (hk : k1 ≠ k2) :
    decrypt_file E (some (n ++ (E.lock k1 n p).1 ++ (E.lock k1 n p).2))
      (some k2) false = .authFailure := by
  rw [decrypt_file_parse E k2 n _ _ hn (hE.len_t k1 n p)]
  cases hu : E.unlock k2 n (E.lock k1 n p).1 (E.lock k1 n p).2 with
  | none => rfl
  | some q =>
    exfalso
    have hq := hE.sound k2 n _ _ q hu
    have htags : (E.lock k2 n q).2 = (E.lock k1 n p).2 := by rw [hq]
    obtain ⟨hkk, -, -⟩ := hE.tag_inj k2 n q k1 n p htags
    exact hk (hkk.symm ▸ rfl)

/-- C1.  Round-trip: for every 32-byte key and non-empty plaintext, sealing
with `encrypt_file` (under any lawful AEAD engine and any 24-byte random
draw) and opening the resulting envelope with `decrypt_file` under the same
key succeeds and returns the original plaintext byte for byte. -/
theorem roundtrip_ok (E : AEAD) (hE : LawfulAEAD E) (k n p : List Nat)
    (hk : k.length = 32) (hn : n.length = 24) (hp : p ≠ []) :
    ∃ out, encrypt_file E (some p) (some k) false n =
        .ok out (toInt32 (p.length + 40)) ∧
      decrypt_file E (some out) (some k) false = .ok p (toInt32 p.length) :=
  ⟨_, encrypt_file_ok E p k n hp, open_seal E hE k n p hn⟩

/-- Witness for C1 at key `zeroKey`, nonce `zeroNonce`, plaintext `[7]`. -/
theorem roundtrip_ok_witness :
    zeroKey.length = 32 ∧ zeroNonce.length = 24 ∧ ([7] : List Nat) ≠ [] ∧
    ∃ out, encrypt_file toyAEAD (some [7]) (some zeroKey) false zeroNonce =
        .ok out (toInt32 41) ∧
      decrypt_file toyAEAD (some out) (some zeroKey) false =
        .ok [7] (toInt32 1) := by
  refine ⟨by decide, by decide, by decide, ?_⟩
  simpa using roundtrip_ok toyAEAD toyAEAD_lawful zeroKey zeroNonce [7]
    (by decide) (by decide) (by decide)

/-- C2.  Tamper detection: flipping any single bit of any byte in the
ciphertext region (offsets 24 to 24+len(p)) or tag region (the last 16
bytes) of an envelope produced by `encrypt_file` makes `decrypt_file` under
the same key take the authentication-failure branch (surfacing `-1`), never
return a plaintext. -/
theorem tamper_detected (E : AEAD) (hE : LawfulAEAD E) (k n p : List Nat)
    (i b : Nat) (hk : k.length = 32) (hn : n.length = 24) (hp : p ≠ [])
    (hreg1 : 24 ≤ i) (hreg2 : i < p.length + 40) (hb : b < 8) :
    ∀ out r, encrypt_file E (some p) (some k) false n = .ok out r →
      decrypt_file E (some (flipAt out i b)) (some k) false =
        .authFailure := by
  intro out r hok
  rw [encrypt_file_ok E p k n hp] at hok
  injection hok with h1 h2
  rw [← h1]
  exact tamper_rejects E hE k n p i b hn hreg1 hreg2

/-- Witness for C2: flipping bit 0 of byte 24 (the first ciphertext byte)
of the envelope sealing `[7]` under `zeroKey`. -/
theorem tamper_detected_witness :
    decrypt_file toyAEAD
      (some (flipAt (zeroNonce ++ (toyAEAD.lock zeroKey zeroNonce [7]).1 ++
        (toyAEAD.lock zeroKey zeroNonce [7]).2) 24 0))
      (some zeroKey) false = .authFailure :=
  tamper_detected toyAEAD toyAEAD_lawful zeroKey zeroNonce [7] 24 0
    (by decide) (by decide) (by decide) (by decide) (by decide) (by decide)
    _ _ (encrypt_file_ok toyAEAD [7] zeroKey zeroNonce (by decide))

/-- C3.  Wrong-key rejection: opening an envelope sealed under `k1` with a
different key `k2` takes the authentication-failure branch and returns no
plaintext. -/
theorem wrong_key_rejected (E : AEAD) (hE : LawfulAEAD E)
    (k1 k2 n p : List Nat) (hk1 : k1.length = 32) (hk2 : k2.length = 32)
    (hn : n.length = 24) (hp : p ≠ []) (hkk : k1 ≠ k2) :
    ∀ out r, encrypt_file E (some p) (some k1) false n = .ok out r →
      decrypt_file E (some out) (some k2) false = .authFailure := by
  intro out r hok
  rw [encrypt_file_ok E p k1 n hp] at hok
  injection hok with h1 h2
  rw [← h1]
  exact wrong_key_rejects E hE k1 k2 n p hn hkk

/-- Witness for C3 at keys `zeroKey ≠ oneKey` and plaintext `[7]`. -/
theorem wrong_key_rejected_witness :
    decrypt_file toyAEAD
      (some (zeroNonce ++ (toyAEAD.lock zeroKey zeroNonce [7]).1 ++
        (toyAEAD.lock zeroKey zeroNonce [7]).2))
      (some oneKey) false = .authFailure :=
  wrong_key_rejected toyAEAD toyAEAD_lawful zeroKey oneKey zeroNonce [7]
    (by decide) (by decide) (by decide) (by decide) (by decide)
    _ _ (encrypt_file_ok toyAEAD [7] zeroKey zeroNonce (by decide))

/-- A plaintext long enough that `plaintext_len + 40` reaches `2^31` and the
`static_cast<int>` in `encrypt_file`'s return overflows to a negative
value. -/
def bigP : List Nat := List.replicate (2 ^ 31 - 40) 0

/-- Counterexample to C4 as stated: for the (valid) plaintext `bigP` of
`2^31 - 40` bytes, `encrypt_file` takes the success path but its reported
output length is `-2^31`, not `len(p) + 40 = 2^31`. -/
theorem length_law_cex :
    encryptRet (encrypt_file toyAEAD (some bigP) (some zeroKey) false
      zeroNonce) = -(2 ^ 31 : Int) ∧
    (bigP.length : Int) + 40 = 2 ^ 31 ∧ -(2 ^ 31 : Int) ≠ 2 ^ 31 := by
  have hlen : bigP.length = 2 ^ 31 - 40 := by
    rw [bigP, List.length_replicate]
  have hne : bigP ≠ [] := by
    intro h
    rw [h] at hlen
    simp at hlen
  refine ⟨?_, by omega, by norm_num⟩
  rw [encrypt_file_ok toyAEAD bigP zeroKey zeroNonce hne]
  show toInt32 (bigP.length + 40) = -(2 ^ 31 : Int)
  rw [hlen, show (2 : Nat) ^ 31 - 40 + 40 = 2 ^ 31 from by omega]
  norm_num [toInt32]

/-- C4 (amended).  Length law and wire layout, restricted to plaintexts
whose envelope length fits a signed 32-bit integer: for every 32-byte key
and non-empty plaintext with `len(p) + 40 < 2^31`, `encrypt_file` succeeds,
reports exactly `len(p) + 40`, and its output buffer is the drawn 24-byte
nonce, followed by the `len(p)`-byte ciphertext of `p`, followed by the
16-byte tag. -/
theorem length_law_fits (E : AEAD) (hE : LawfulAEAD E) (k n p : List Nat)
    (hk : k.length = 32) (hn : n.length = 24) (hp : p ≠ [])
    (hfit : p.length + 40 < 2 ^ 31) :
    encrypt_file E (some p) (some k) false n =
      .ok (n ++ (E.lock k n p).1 ++ (E.lock k n p).2)
        ((p.length : Int) + 40) ∧
    (E.lock k n p).1.length = p.length ∧ (E.lock k n p).2.length = 16 ∧
    (n ++ (E.lock k n p).1 ++ (E.lock k n p).2).length = p.length + 40 := by
  refine ⟨?_, hE.len_c k n p, hE.len_t k n p, ?_⟩
  · rw [encrypt_file_ok E p k n hp, toInt32_of_lt hfit]
    norm_cast
  · simp only [List.length_append, hE.len_c k n p, hE.len_t k n p, hn]
    omega

/-- Witness for the amended C4 at plaintext `[7]`. -/
theorem length_law_fits_witness :
    ([7] : List Nat) ≠ [] ∧ ([7] : List Nat).length + 40 < 2 ^ 31 ∧
    encrypt_file toyAEAD (some [7]) (some zeroKey) false zeroNonce =
      .ok (zeroNonce ++ (toyAEAD.lock zeroKey zeroNonce [7]).1 ++
        (toyAEAD.lock zeroKey zeroNonce [7]).2) 41 := by
  refine ⟨by decide, by decide, ?_⟩
  have h := (length_law_fits toyAEAD toyAEAD_lawful zeroKey zeroNonce [7]
    (by decide) (by decide) (by decide) (by decide)).1
  simpa using h

/-- C5.  Opener postcondition: whenever `decrypt_file` succeeds on a blob
`e`, the plaintext it returns has length `len(e) - 40`; and when `e` was
produced by `encrypt_file` under the same key, the returned plaintext is the
originally sealed one. -/
theorem opener_postcondition (E : AEAD) (hE : LawfulAEAD E) :
    (∀ e k p r, decrypt_file E (some e) (some k) false = .ok p r →
      p.length = e.length - 40) ∧
    (∀ k n p, n.length = 24 → p ≠ [] →
      ∀ out r, encrypt_file E (some p) (some k) false n = .ok out r →
        ∀ q s, decrypt_file E (some out) (some k) false = .ok q s →
          q = p) := by
  constructor
  · intro e k p r h
    rw [decrypt_file] at h
    by_cases hc : (false = true ∨ e.length < 40)
    · rw [if_pos hc] at h
      simp at h
    · rw [if_neg hc] at h
      cases hu : E.unlock k (e.take 24) ((e.drop 24).take (e.length - 40))
          (e.drop (24 + (e.length - 40))) with
      | none =>
        rw [hu] at h
        simp at h
      | some q =>
        rw [hu] at h
        injection h with h1 h2
        subst h1
        have hlock := hE.sound k (e.take 24) _ _ q hu
        have hql : q.length = ((e.drop 24).take (e.length - 40)).length := by
          have := hE.len_c k (e.take 24) q
          rw [hlock] at this
          exact this.symm
        rw [hql, List.length_take, List.length_drop]
        have h40 : ¬ e.length < 40 := by simpa using hc
        omega
  · intro k n p hn hp out r hok q s hq
    rw [encrypt_file_ok E p k n hp] at hok
    injection hok with h1 h2
    rw [← h1, open_seal E hE k n p hn] at hq
    injection hq with h3 h4
    exact h3.symm

/-- Witness for C5: both conjuncts applied to the envelope sealing `[7]`
under `zeroKey`. -/
theorem opener_postcondition_witness :
    decrypt_file toyAEAD
      (some (zeroNonce ++ (toyAEAD.lock zeroKey zeroNonce [7]).1 ++
        (toyAEAD.lock zeroKey zeroNonce [7]).2)) (some zeroKey) false =
      .ok [7] (toInt32 1) ∧
    ([7] : List Nat).length =
      (zeroNonce ++ (toyAEAD.lock zeroKey zeroNonce [7]).1 ++
        (toyAEAD.lock zeroKey zeroNonce [7]).2).length - 40 := by
  have hopen := open_seal toyAEAD toyAEAD_lawful zeroKey zeroNonce [7]
    (by decide)
  refine ⟨hopen, ?_⟩
  exact (opener_postcondition toyAEAD toyAEAD_lawful).1 _ zeroKey [7]
    (toInt32 1) hopen

/-- C6.  Boundary rejection: a blob shorter than 40 bytes is rejected by
`decrypt_file` as invalid input whatever the AEAD engine is (the engine is
never consulted), and an empty plaintext is rejected by `encrypt_file` as
invalid input whatever the engine and whatever the random draw (neither is
consulted). -/
theorem boundary_rejection :
    (∀ (E : AEAD) (e k : List Nat) (b : Bool), e.length < 40 →
      decrypt_file E (some e) (some k) b = .invalidInput) ∧
    (∀ (E : AEAD) (k n : List Nat) (b : Bool),
      encrypt_file E (some []) (some k) b n = .invalidInput) := by
  constructor
  · intro E e k b h
    rw [decrypt_file, if_pos (Or.inr h)]
  · intro E k n b
    rw [encrypt_file, if_pos (Or.inr List.length_nil)]

/-- Witness for C6 at a 39-byte blob and the empty plaintext. -/
theorem boundary_rejection_witness :
    (List.replicate 39 (0 : Nat)).length < 40 ∧
    decrypt_file toyAEAD (some (List.replicate 39 0)) (some zeroKey) false =
      .invalidInput ∧
    encrypt_file toyAEAD (some []) (some zeroKey) false zeroNonce =
      .invalidInput :=
  ⟨by decide,
    boundary_rejection.1 toyAEAD (List.replicate 39 0) zeroKey false
      (by decide),
    boundary_rejection.2 toyAEAD zeroKey zeroNonce false⟩

/-- Counterexample to C7 as stated: a structurally short blob (39 bytes)
and a tampered envelope fail through different internal branches
(`invalidInput` versus `authFailure`), yet the `int` surfaced to the caller
is the same sentinel `-1` in both cases, so the kinds cannot be told apart
from the operation's result. -/
theorem error_kinds_cex :
    decrypt_file toyAEAD (some (List.replicate 39 0)) (some zeroKey) false =
      .invalidInput ∧
    decrypt_file toyAEAD
      (some (flipAt (zeroNonce ++ (toyAEAD.lock zeroKey zeroNonce [7]).1 ++
        (toyAEAD.lock zeroKey zeroNonce [7]).2) 30 0))
      (some zeroKey) false = .authFailure ∧
    decryptRet (decrypt_file toyAEAD (some (List.replicate 39 0))
      (some zeroKey) false) = -1 ∧
    decryptRet (decrypt_file toyAEAD
      (some (flipAt (zeroNonce ++ (toyAEAD.lock zeroKey zeroNonce [7]).1 ++
        (toyAEAD.lock zeroKey zeroNonce [7]).2) 30 0))
      (some zeroKey) false) = -1 := by
  have h1 : decrypt_file toyAEAD (some (List.replicate 39 0)) (some zeroKey)
      false = .invalidInput := by
    rw [decrypt_file, if_pos (Or.inr (by decide))]
  have h2 := tamper_rejects toyAEAD toyAEAD_lawful zeroKey zeroNonce [7]
    30 0 (by decide) (by decide) (by decide)
  exact ⟨h1, h2, by rw [h1]; rfl, by rw [h2]; rfl⟩

/-- C7 (amended).  The failure kinds exist as distinct internal branches,
but the result surfaced to the caller is the single sentinel `-1` for every
failure of either operation: from the `int` result alone a caller cannot
tell invalid input apart from authentication failure. -/
theorem error_sentinel_uniform :
    (∀ (E : AEAD) (p k : Option (List Nat)) (b : Bool) (n : List Nat),
      (∀ out r, encrypt_file E p k b n ≠ .ok out r) →
      encryptRet (encrypt_file E p k b n) = -1) ∧
    (∀ (E : AEAD) (e k : Option (List Nat)) (b : Bool),
      (∀ q r, decrypt_file E e k b ≠ .ok q r) →
      decryptRet (decrypt_file E e k b) = -1) := by
  constructor
  · intro E p k b n h
    cases hx : encrypt_file E p k b n with
    | invalidInput => rfl
    | ok out r => exact absurd hx (h out r)
  · intro E e k b h
    cases hx : decrypt_file E e k b with
    | invalidInput => rfl
    | authFailure => rfl
    | ok q r => exact absurd hx (h q r)

/-- Witness for the amended C7 at null pointers. -/
theorem error_sentinel_uniform_witness :
    encryptRet (encrypt_file toyAEAD none none true []) = -1 ∧
    decryptRet (decrypt_file toyAEAD none none true) = -1 :=
  ⟨error_sentinel_uniform.1 toyAEAD none none true []
      (fun out r h => by simp [encrypt_file] at h),
    error_sentinel_uniform.2 toyAEAD none none true
      (fun q r h => by simp [decrypt_file] at h)⟩

/-- C8.  No partial results: whenever either operation surfaces a success
value, that value comes from the genuine success path — for `encrypt_file`,
non-null pointers, a non-empty plaintext and an output buffer that is
exactly `nonce || ciphertext || mac`; for `decrypt_file`, a structurally
valid blob whose tag the engine verified, the returned plaintext being
precisely the engine's output.  Error returns carry no bytes at all, so no
fallback or partial buffer is ever presented as a result. -/
theorem no_partial_results :
    (∀ (E : AEAD) (p k : Option (List Nat)) (b : Bool) (n out : List Nat)
        (r : Int),
      encrypt_file E p k b n = .ok out r →
      ∃ pp kk, p = some pp ∧ k = some kk ∧ b = false ∧ pp ≠ [] ∧
        out = n ++ (E.lock kk n pp).1 ++ (E.lock kk n pp).2 ∧
        r = toInt32 (pp.length + 40)) ∧
    (∀ (E : AEAD) (e k : Option (List Nat)) (b : Bool) (q : List Nat)
        (r : Int),
      decrypt_file E e k b = .ok q r →
      ∃ ee kk, e = some ee ∧ k = some kk ∧ b = false ∧ 40 ≤ ee.length ∧
        E.unlock kk (ee.take 24) ((ee.drop 24).take (ee.length - 40))
          (ee.drop (24 + (ee.length - 40))) = some q ∧
        r = toInt32 (ee.length - 40)) := by
  constructor
  · intro E p k b n out r h
    cases p with
    | none => simp [encrypt_file] at h
    | some pp =>
      cases k with
      | none => simp [encrypt_file] at h
      | some kk =>
        rw [encrypt_file] at h
        by_cases hc : (b = true ∨ pp.length = 0)
        · rw [if_pos hc] at h
          simp at h
        · rw [if_neg hc] at h
          injection h with h1 h2
          push_neg at hc
          refine ⟨pp, kk, rfl, rfl, by simpa using hc.1, ?_, h1.symm,
            h2.symm⟩
          intro hnil
          exact hc.2 (by rw [hnil]; rfl)
  · intro E e k b q r h
    cases e with
    | none => simp [decrypt_file] at h
    | some ee =>
      cases k with
      | none => simp [decrypt_file] at h
      | some kk =>
        rw [decrypt_file] at h
        by_cases hc : (b = true ∨ ee.length < 40)
        · rw [if_pos hc] at h
          simp at h
        · rw [if_neg hc] at h
          cases hu : E.unlock kk (ee.take 24)
              ((ee.drop 24).take (ee.length - 40))
              (ee.drop (24 + (ee.length - 40))) with
          | none =>
            rw [hu] at h
            simp at h
          | some qq =>
            rw [hu] at h
            injection h with h1 h2
            push_neg at hc
            subst h1
            exact ⟨ee, kk, rfl, rfl, by simpa using hc.1, by omega, hu,
              h2.symm⟩

/-- Witness for C8: the successful opening of the envelope sealing `[7]`
really did come from a successful engine verification. -/
theorem no_partial_results_witness :
    ∃ ee kk,
      (some (zeroNonce ++ (toyAEAD.lock zeroKey zeroNonce [7]).1 ++
        (toyAEAD.lock zeroKey zeroNonce [7]).2) : Option (List Nat)) =
          some ee ∧
      (some zeroKey : Option (List Nat)) = some kk ∧ (false = false) ∧
      40 ≤ ee.length ∧
      toyAEAD.unlock kk (ee.take 24) ((ee.drop 24).take (ee.length - 40))
        (ee.drop (24 + (ee.length - 40))) = some [7] ∧
      toInt32 1 = toInt32 (ee.length - 40) :=
  no_partial_results.2 toyAEAD _ _ false [7] (toInt32 1)
    (open_seal toyAEAD toyAEAD_lawful zeroKey zeroNonce [7] (by decide))

/-- A plaintext whose envelope length is `2^32 - 1`: the cast return value
collides with the `-1` error sentinel. -/
def aliasP : List Nat := List.replicate (2 ^ 32 - 41) 0

/-- A `2^31`-byte plaintext, for the decrypt-side overflow. -/
def bigP2 : List Nat := List.replicate (2 ^ 31) 0

/-- The honest toy-engine envelope of `bigP2`, a blob of `2^31 + 40`
bytes. -/
def bigE2 : List Nat :=
  zeroNonce ++ (toyAEAD.lock zeroKey zeroNonce bigP2).1 ++
    (toyAEAD.lock zeroKey zeroNonce bigP2).2

/-- The return value of `decrypt_file` on any success is the 32-bit cast of
`encrypted_len - 40`. -/
lemma decrypt_file_ok_ret (E : AEAD) (e k q : List Nat) (r : Int)
    (h : decrypt_file E (some e) (some k) false = .ok q r) :
    r = toInt32 (e.length - 40) := by
  rw [decrypt_file] at h
  by_cases hc : (false = true ∨ e.length < 40)
  · rw [if_pos hc] at h
    simp at h
  · rw [if_neg hc] at h
    cases hu : E.unlock k (e.take 24) ((e.drop 24).take (e.length - 40))
        (e.drop (24 + (e.length - 40))) with
    | none =>
      rw [hu] at h
      simp at h
    | some qq =>
      rw [hu] at h
      injection h with h1 h2
      exact h2.symm

/-- Length of the oversized envelope `bigE2`. -/
lemma bigE2_length : bigE2.length = 2 ^ 31 + 40 := by
  rw [bigE2]
  simp only [List.length_append]
  rw [toyAEAD_lawful.len_t zeroKey zeroNonce bigP2,
    show (toyAEAD.lock zeroKey zeroNonce bigP2).1 = bigP2 from rfl,
    show bigP2.length = 2 ^ 31 from by rw [bigP2, List.length_replicate],
    show zeroNonce.length = 24 from by decide]
  omega

/-- Opening `bigE2` succeeds and reports the cast of `2^31`. -/
lemma bigE2_open :
    decrypt_file toyAEAD (some bigE2) (some zeroKey) false =
      .ok bigP2 (toInt32 (2 ^ 31)) := by
  have h := open_seal toyAEAD toyAEAD_lawful zeroKey zeroNonce bigP2
    (by decide)
  rw [show bigP2.length = 2 ^ 31 from by rw [bigP2, List.length_replicate]]
    at h
  rw [bigE2]
  exact h

/-- C10.  Overflow at the `static_cast<int>`: for the `2^31 - 40`-byte
plaintext `bigP`, `encrypt_file` succeeds but returns `-2^31` instead of
the true output length `2^31`; for the `2^32 - 41`-byte plaintext `aliasP`
the successful return is exactly the `-1` error sentinel; the reported
length is faithful precisely when `len(p) + 40 < 2^31`; and on the open
side the success return is always the 32-bit cast of `encrypted_len - 40`,
which is negative whenever `2^31 + 40 ≤ encrypted_len < 2^32 + 40`. -/
theorem int_cast_overflow :
    (∀ (E : AEAD) (k n : List Nat),
      encryptRet (encrypt_file E (some bigP) (some k) false n) =
        -(2 ^ 31 : Int)) ∧
    (∀ (E : AEAD) (k n : List Nat),
      encryptRet (encrypt_file E (some aliasP) (some k) false n) = -1) ∧
    (∀ (E : AEAD) (k n p : List Nat), p ≠ [] → p.length + 40 < 2 ^ 31 →
      encryptRet (encrypt_file E (some p) (some k) false n) =
        (p.length : Int) + 40) ∧
    (∀ (E : AEAD) (e k q : List Nat) (r : Int),
      decrypt_file E (some e) (some k) false = .ok q r →
      r = toInt32 (e.length - 40)) ∧
    (∀ (E : AEAD) (e k q : List Nat) (r : Int),
      2 ^ 31 + 40 ≤ e.length → e.length < 2 ^ 32 + 40 →
      decrypt_file E (some e) (some k) false = .ok q r → r < 0) := by
  have hblen : bigP.length = 2 ^ 31 - 40 := by
    rw [bigP, List.length_replicate]
  have halen : aliasP.length = 2 ^ 32 - 41 := by
    rw [aliasP, List.length_replicate]
  refine ⟨?_, ?_, ?_, decrypt_file_ok_ret, ?_⟩
  · intro E k n
    rw [encrypt_file_ok E bigP k n
      (by intro h; rw [h] at hblen; simp at hblen)]
    show toInt32 (bigP.length + 40) = -(2 ^ 31 : Int)
    rw [hblen, show (2 : Nat) ^ 31 - 40 + 40 = 2 ^ 31 from by omega]
    norm_num [toInt32]
  · intro E k n
    rw [encrypt_file_ok E aliasP k n
      (by intro h; rw [h] at halen; simp at halen)]
    show toInt32 (aliasP.length + 40) = -1
    rw [halen, show (2 : Nat) ^ 32 - 41 + 40 = 2 ^ 32 - 1 from by omega]
    norm_num [toInt32]
  · intro E k n p hp hfit
    rw [encrypt_file_ok E p k n hp]
    show toInt32 (p.length + 40) = (p.length : Int) + 40
    rw [toInt32_of_lt hfit]
    omega
  · intro E e k q r h1 h2 hok
    rw [decrypt_file_ok_ret E e k q r hok, toInt32,
      Nat.mod_eq_of_lt (by omega), if_neg (by omega)]
    omega

/-- Witness for C10, discharging the hypotheses of its conditional parts:
the in-range law at `[7]`, and the decrypt-side cast and its sign on the
oversized envelope `bigE2`. -/
theorem int_cast_overflow_witness :
    (([7] : List Nat) ≠ [] ∧ ([7] : List Nat).length + 40 < 2 ^ 31 ∧
      encryptRet (encrypt_file toyAEAD (some [7]) (some zeroKey) false
        zeroNonce) = (([7] : List Nat).length : Int) + 40) ∧
    (decrypt_file toyAEAD (some bigE2) (some zeroKey) false =
      .ok bigP2 (toInt32 (2 ^ 31)) ∧
      toInt32 (2 ^ 31) = toInt32 (bigE2.length - 40)) ∧
    (2 ^ 31 + 40 ≤ bigE2.length ∧ bigE2.length < 2 ^ 32 + 40 ∧
      toInt32 (2 ^ 31) < 0) := by
  have hle : 2 ^ 31 + 40 ≤ bigE2.length := by rw [bigE2_length]
  have hlt : bigE2.length < 2 ^ 32 + 40 := by rw [bigE2_length]; norm_num
  exact ⟨⟨by decide, by decide,
      int_cast_overflow.2.2.1 toyAEAD zeroKey zeroNonce [7] (by decide)
        (by decide)⟩,
    ⟨bigE2_open,
      int_cast_overflow.2.2.2.1 toyAEAD bigE2 zeroKey bigP2 (toInt32 (2 ^ 31))
        bigE2_open⟩,
    hle, hlt,
    int_cast_overflow.2.2.2.2 toyAEAD bigE2 zeroKey bigP2 (toInt32 (2 ^ 31))
      hle hlt bigE2_open⟩

end DeadDrop
